import Mathlib

/-!
Verification of the wildcard matcher of `go-immutable-radix` (`wildcard.go`).

Keys and patterns are byte sequences, modelled as `List Nat`.  The radix tree
collaborator (spec §4.1) is modelled as a tree of nodes, each carrying the
edge label (`pfx`) that leads to it, a terminal flag (`lf`), and its outgoing
edges.  The matcher `MatchWithWildcards` / `matchWithWildcardsFrom` is a
direct translation of `wildcard.go`.
-/

/-- The byte `'.'` (segment separator). -/
def dotB : Nat := 46

/-- The byte `'*'` (wildcard). -/
def starB : Nat := 42

mutual
/-- Modelled from the spec: a node of the prefix tree (§4.1, §3 "Node").
`pfx` is the edge-label byte sequence leading to this node (the `prefix`
field of the Go node), `lf` says whether a stored pattern ends exactly here
(`IsTerminal` / `isLeaf`), and `es` are the outgoing edges. -/
inductive Node where
| mk : List Nat → Bool → EdgeList → Node
/-- Modelled from the spec: the collection of outgoing edges of a node. -/
inductive EdgeList where
| enil : EdgeList
| econs : Node → EdgeList → EdgeList
end

/-- The edge label leading to this node (the Go `n.prefix`). -/
def Node.pfx : Node → List Nat
| .mk p _ _ => p

/-- Modelled from the spec: `IsTerminal` (§4.1); the Go `n.isLeaf()`. -/
def Node.isLeaf : Node → Bool
| .mk _ l _ => l

/-- The outgoing edges of a node. -/
def Node.es : Node → EdgeList
| .mk _ _ es => es

/-- Find the first edge whose label begins with byte `b`. -/
def findE : EdgeList → Nat → Option Node
| .enil, _ => none
| .econs c cs, b => if c.pfx.head? == some b then some c else findE cs b

/-- Modelled from the spec: `ChildEdge` (§4.1), the Go `n.getEdge(label)`:
the single outgoing edge (if any) whose label begins with the given byte. -/
def getEdge (n : Node) (b : Nat) : Option Node :=
  findE n.es b

/-- Lines 45-49 of `wildcard.go`: `wildcardNode != nil && wildcardNode.isLeaf()`
for `_, wildcardNode := n.getEdge('*')`. -/
def starLeafAt (n : Node) : Bool :=
  match getEdge n starB with
  | some wildcardNode => wildcardNode.isLeaf
  | none => false

/-- The shape test of lines 58-60 of `wildcard.go`: the label has length at
least 2 and its literal final two bytes are `.` then `*`. -/
def endsDS (k : List Nat) : Bool :=
  decide (2 ≤ k.length) && (k.getD (k.length - 2) 0 == dotB)
    && (k.getD (k.length - 1) 0 == starB)

/-- Lines 57-72 of `wildcard.go`: the wildcard-suffix check on the next edge.
`wildcardPrefix` is `next.prefix[:len(next.prefix)-2]`; the check succeeds if
the label ends in `.*`, the node is terminal, the search begins with
`wildcardPrefix`, and the byte after it is `.` or the search ends there. -/
def dotstarHit (next : Node) (search : List Nat) : Bool :=
  endsDS next.pfx && next.isLeaf
    && (next.pfx.take (next.pfx.length - 2)).isPrefixOf search
    && ((search.length == next.pfx.length - 2)
        || (decide (next.pfx.length - 2 < search.length)
            && (search.getD (next.pfx.length - 2) 0 == dotB)))

mutual
/-- Translation of `matchWithWildcardsFrom` (lines 37-86 of `wildcard.go`).
The edge lookup of line 52 (`n.getEdge(search[0])`) is inlined as the
structural walk `mwwfEdges` over the edge list; `mwwfEdges_eq` below
proves it equal to the `getEdge`-then-branch form of the source. -/
def matchWithWildcardsFrom : Node → List Nat → List Nat → Bool
| Node.mk p l es, originalKey, search =>
  if search.isEmpty then l
  else if starLeafAt (Node.mk p l es) then true
  else mwwfEdges es (search.headD 0) originalKey search
/-- The body of lines 52-86 of `wildcard.go`, fused with the first-byte edge
lookup: find the first edge whose label begins with `b` and run lines 57-85
on it; if no edge matches, return `false` (line 54). -/
def mwwfEdges : EdgeList → Nat → List Nat → List Nat → Bool
| EdgeList.enil, _, _, _ => false
| EdgeList.econs c cs, b, originalKey, search =>
  if c.pfx.head? == some b then
    if dotstarHit c search then true
    else if c.pfx.isPrefixOf search then
      matchWithWildcardsFrom c originalKey (search.drop c.pfx.length)
    else if search.isPrefixOf c.pfx then
      c.isLeaf && (search.length == c.pfx.length)
    else false
  else mwwfEdges cs b originalKey search
end

mutual
/-- The set (as a list) of keys stored in the tree: concatenations of edge
labels along every root-to-terminal-node path (spec §4.1 tree invariant). -/
def keys : Node → List (List Nat)
| .mk _ l es => (if l then [[]] else []) ++ keysE es
/-- Keys contributed by a list of edges. -/
def keysE : EdgeList → List (List Nat)
| .enil => []
| .econs c cs => (keys c).map (fun k => c.pfx ++ k) ++ keysE cs
end

/-- Modelled from the spec: `Get` (§4.1), "exact membership test for a full
key"; only the `found` component is needed by the matcher. -/
def getMem (n : Node) (key : List Nat) : Bool :=
  (keys n).contains key

/-- Translation of `MatchWithWildcards` (lines 19-32 of `wildcard.go`). -/
def MatchWithWildcards (n : Node) (key : List Nat) : Bool :=
  if key.isEmpty then getMem n key
  else if getMem n [starB] then true
  else matchWithWildcardsFrom n key key

mutual
/-- Structural well-formedness of the radix tree (spec §4.1): every edge
label is non-empty, and no two sibling edges share a first byte. -/
def wfS : Node → Bool
| .mk _ _ es => wfE es
/-- Structural well-formedness of an edge list. -/
def wfE : EdgeList → Bool
| .enil => true
| .econs c cs =>
  !c.pfx.isEmpty && (findE cs (c.pfx.headD 0)).isNone && wfS c && wfE cs
end

mutual
/-- The invariant of claim C9 alone: all edge labels are non-empty. -/
def edgesNE : Node → Bool
| .mk _ _ es => edgesNEE es
/-- Non-emptiness of all labels below an edge list. -/
def edgesNEE : EdgeList → Bool
| .enil => true
| .econs c cs => !c.pfx.isEmpty && edgesNE c && edgesNEE cs
end

/-- A pattern shape allowed by the spec (C1: "patterns are exact keys, keys
ending in `.*`, or the single key `*`"): either it contains no `*` at all,
or it is exactly `*`, or it ends in `.*` with no other `*`. -/
def wfPatternB (k : List Nat) : Bool :=
  !(k.contains starB) || (k == [starB])
    || (endsDS k && !((k.take (k.length - 2)).contains starB))

/-- A well-formed tree: structurally a radix tree, storing only well-formed
patterns. -/
def wellFormedB (n : Node) : Bool :=
  wfS n && (keys n).all wfPatternB

/-- The spec-side matching predicate (§4.2 contract, stated over the stored
pattern set `S`): the key is an exact stored pattern, or some prefix `p` of
the key ending at a segment boundary has `p ++ ".*"` stored (`key = p` or
`key` starts with `p ++ "."`), or `*` is stored and the key is non-empty. -/
def specMatchB (S : List (List Nat)) (key : List Nat) : Bool :=
  S.contains key
    || (S.contains [starB] && !key.isEmpty)
    || S.any (fun w =>
        decide (2 ≤ w.length) && (w.drop (w.length - 2) == [dotB, starB])
          && (key == w.take (w.length - 2)
              || (w.take (w.length - 2) ++ [dotB]).isPrefixOf key))

/-- A fuel-bounded variant of `matchWithWildcardsFrom`, recursing on the fuel
and performing the edge lookup with `getEdge`; `0` fuel yields `false`.
Used to express claim C9: on trees with non-empty edge labels, fuel
`search.length + 1` always suffices. -/
def matchFromFuel : Nat → Node → List Nat → List Nat → Bool
| 0, _, _, _ => false
| fuel + 1, n, originalKey, search =>
  if search.isEmpty then n.isLeaf
  else if starLeafAt n then true
  else
    match getEdge n (search.headD 0) with
    | none => false
    | some next =>
      if dotstarHit next search then true
      else if next.pfx.isPrefixOf search then
        matchFromFuel fuel next originalKey (search.drop next.pfx.length)
      else if search.isPrefixOf next.pfx then
        next.isLeaf && (search.length == next.pfx.length)
      else false

/-- Membership of a node in an edge list. -/
def EMem (c : Node) : EdgeList → Prop
| .enil => False
| .econs d ds => c = d ∨ EMem c ds

/-- Structural induction on trees via edge membership. -/
theorem node_ind {P : Node → Prop}
    (h : ∀ p l es, (∀ c, EMem c es → P c) → P (.mk p l es)) : ∀ n, P n := by
  refine fun n => @Node.rec P (fun es => ∀ c, EMem c es → P c) ?_ ?_ ?_ n
  · exact fun p l es ih => h p l es ih
  · intro c hc
    exact absurd hc (by simp [EMem])
  · intro d ds ihd ihds c hc
    rcases hc with rfl | hc
    · exact ihd
    · exact ihds c hc

/-- Structural induction on edge lists alone. -/
theorem elist_ind {P : EdgeList → Prop} (enil : P .enil)
    (econs : ∀ d ds, P ds → P (.econs d ds)) : ∀ es, P es :=
  fun es => @EdgeList.rec (fun _ => True) P (fun _ _ _ _ => trivial) enil
    (fun d ds _ ih => econs d ds ih) es

-- ## Basic lemmas about the embedding

theorem mwwf_mk (p : List Nat) (l : Bool) (es : EdgeList) (o s : List Nat) :
    matchWithWildcardsFrom (.mk p l es) o s =
      if s.isEmpty then l
      else if starLeafAt (.mk p l es) then true
      else mwwfEdges es (s.headD 0) o s := rfl

/-- The fused edge walk equals the `getEdge`-then-branch form of the source:
look up the first edge on the byte, return `false` if none, else run the
wildcard-suffix check and the prefix-consumption chain of lines 57-85. -/
theorem mwwfEdges_eq (es : EdgeList) (b : Nat) (o s : List Nat) :
    mwwfEdges es b o s =
      (match findE es b with
       | none => false
       | some next =>
         if dotstarHit next s then true
         else if next.pfx.isPrefixOf s then
           matchWithWildcardsFrom next o (s.drop next.pfx.length)
         else if s.isPrefixOf next.pfx then
           next.isLeaf && (s.length == next.pfx.length)
         else false) := by
  induction es using elist_ind with
  | enil => rfl
  | econs d ds ih =>
    by_cases hd : (d.pfx.head? == some b) = true
    · simp only [mwwfEdges, findE, hd, if_true, if_pos]
    · simp only [mwwfEdges, findE, hd, if_false, if_neg, Bool.not_eq_true] at *
      simpa using ih

theorem findE_mem_head : ∀ {es : EdgeList} {b : Nat} {c : Node},
    findE es b = some c → EMem c es ∧ c.pfx.head? = some b := by
  intro es
  induction es using elist_ind with
  | enil => intro b c h; simp [findE] at h
  | econs d ds ih =>
    intro b c h
    simp only [findE] at h
    by_cases hd : (d.pfx.head? == some b) = true
    · rw [if_pos hd] at h
      cases h
      exact ⟨Or.inl rfl, by simpa using hd⟩
    · rw [if_neg hd] at h
      exact ⟨Or.inr (ih h).1, (ih h).2⟩

theorem findE_isSome_of_mem : ∀ {es : EdgeList} {b : Nat} {c : Node},
    EMem c es → c.pfx.head? = some b → (findE es b).isSome = true := by
  intro es
  induction es using elist_ind with
  | enil => intro b c h; simp [EMem] at h
  | econs d ds ih =>
    intro b c hm hh
    simp only [findE]
    by_cases hd : (d.pfx.head? == some b) = true
    · rw [if_pos hd]; rfl
    · rw [if_neg hd]
      rcases hm with rfl | hm
      · exact absurd (by simpa using hh) hd
      · exact ih hm hh

theorem wfE_mem : ∀ {es : EdgeList} {c : Node},
    wfE es = true → EMem c es → wfS c = true ∧ c.pfx ≠ [] := by
  intro es
  induction es using elist_ind with
  | enil => intro c _ h; simp [EMem] at h
  | econs d ds ih =>
    intro c hwf hm
    simp only [wfE, Bool.and_eq_true, Bool.not_eq_true'] at hwf
    rcases hm with rfl | hm
    · exact ⟨hwf.1.2, by simpa [List.isEmpty_iff] using hwf.1.1.1⟩
    · exact ih hwf.2 hm

theorem findE_of_wfE : ∀ {es : EdgeList} {b : Nat} {c : Node},
    wfE es = true → EMem c es → c.pfx.head? = some b → findE es b = some c := by
  intro es
  induction es using elist_ind with
  | enil => intro b c _ h; simp [EMem] at h
  | econs d ds ih =>
    intro b c hwf hm hh
    simp only [wfE, Bool.and_eq_true, Bool.not_eq_true'] at hwf
    simp only [findE]
    rcases hm with rfl | hm
    · rw [if_pos (by simpa using hh)]
    · by_cases hd : (d.pfx.head? == some b) = true
      · exfalso
        have hne : d.pfx ≠ [] := by simpa [List.isEmpty_iff] using hwf.1.1.1
        have hdb : d.pfx.headD 0 = b := by
          cases hp : d.pfx with
          | nil => exact absurd hp hne
          | cons a t =>
            have hab : a = b := by
              have hd' := hd
              rw [hp] at hd'
              simpa using hd'
            simp [hp, hab]
        have hnone := hwf.1.1.2
        rw [hdb] at hnone
        have := findE_isSome_of_mem hm hh
        rw [Option.isNone_iff_eq_none] at hnone
        rw [hnone] at this
        simp at this
      · rw [if_neg hd]
        exact ih hwf.2 hm hh

theorem wfS_mk (p : List Nat) (l : Bool) (es : EdgeList) : wfS (.mk p l es) = wfE es := rfl

theorem wfS_mem {n c : Node} (hwf : wfS n = true) (hm : EMem c n.es) :
    wfS c = true ∧ c.pfx ≠ [] := by
  cases n with
  | mk p l es => exact wfE_mem hwf hm

theorem edgesNEE_mem : ∀ {es : EdgeList} {c : Node},
    edgesNEE es = true → EMem c es → edgesNE c = true ∧ c.pfx ≠ [] := by
  intro es
  induction es using elist_ind with
  | enil => intro c _ h; simp [EMem] at h
  | econs d ds ih =>
    intro c hwf hm
    simp only [edgesNEE, Bool.and_eq_true, Bool.not_eq_true'] at hwf
    rcases hm with rfl | hm
    · exact ⟨hwf.1.2, by simpa [List.isEmpty_iff] using hwf.1.1⟩
    · exact ih hwf.2 hm

theorem edgesNE_mem {n c : Node} (hwf : edgesNE n = true) (hm : EMem c n.es) :
    edgesNE c = true ∧ c.pfx ≠ [] := by
  cases n with
  | mk p l es => exact edgesNEE_mem hwf hm

theorem mem_keysE : ∀ {es : EdgeList} {k : List Nat},
    k ∈ keysE es ↔ ∃ c, EMem c es ∧ ∃ k', k = c.pfx ++ k' ∧ k' ∈ keys c := by
  intro es
  induction es using elist_ind with
  | enil => intro k; simp [keysE, EMem]
  | econs d ds ih =>
    intro k
    simp only [keysE, List.mem_append, List.mem_map, ih, EMem]
    constructor
    · rintro (⟨k', hk', rfl⟩ | ⟨c, hc, k', rfl, hk'⟩)
      · exact ⟨d, Or.inl rfl, k', rfl, hk'⟩
      · exact ⟨c, Or.inr hc, k', rfl, hk'⟩
    · rintro ⟨c, (rfl | hc), k', rfl, hk'⟩
      · exact Or.inl ⟨k', hk', rfl⟩
      · exact Or.inr ⟨c, hc, k', rfl, hk'⟩

theorem mem_keys {n : Node} {k : List Nat} :
    k ∈ keys n ↔ (n.isLeaf = true ∧ k = []) ∨
      ∃ c, EMem c n.es ∧ ∃ k', k = c.pfx ++ k' ∧ k' ∈ keys c := by
  cases n with
  | mk p l es =>
    cases l <;> simp [keys, Node.isLeaf, Node.es, mem_keysE]

theorem keys_append_mem {n c : Node} {k : List Nat} (hc : EMem c n.es)
    (hk : k ∈ keys c) : c.pfx ++ k ∈ keys n :=
  mem_keys.mpr (Or.inr ⟨c, hc, k, rfl, hk⟩)

theorem nil_mem_keys {n : Node} (h : n.isLeaf = true) : [] ∈ keys n :=
  mem_keys.mpr (Or.inl ⟨h, rfl⟩)

theorem isLeaf_of_nil_mem {n : Node} (hwf : wfS n = true) (h : [] ∈ keys n) :
    n.isLeaf = true := by
  rcases mem_keys.mp h with ⟨hl, _⟩ | ⟨c, hc, k', hk', _⟩
  · exact hl
  · exact absurd (List.append_eq_nil.mp hk'.symm).1 (wfS_mem hwf hc).2

-- ## List helpers for the two-byte `.*` suffix

theorem last2 {k : List Nat} (h : 2 ≤ k.length) : ∃ t x y, k = t ++ [x, y] := by
  rcases k.eq_nil_or_concat with rfl | ⟨t1, y, rfl⟩
  · simp at h
  rcases t1.eq_nil_or_concat with rfl | ⟨t2, x, rfl⟩
  · simp at h
  exact ⟨t2, x, y, by simp⟩

theorem getD_app2_left (t : List Nat) (x y : Nat) : (t ++ [x, y]).getD t.length 0 = x := by
  rw [List.getD_eq_getElem?_getD, List.getElem?_append_right (le_refl _)]
  simp

theorem getD_app2_right (t : List Nat) (x y : Nat) :
    (t ++ [x, y]).getD (t.length + 1) 0 = y := by
  rw [List.getD_eq_getElem?_getD, List.getElem?_append_right (by omega)]
  simp

theorem endsDS_iff {k : List Nat} : endsDS k = true ↔ ∃ t, k = t ++ [dotB, starB] := by
  constructor
  · intro h
    simp only [endsDS, Bool.and_eq_true, decide_eq_true_eq, beq_iff_eq] at h
    obtain ⟨⟨h2, hd⟩, hs⟩ := h
    obtain ⟨t, x, y, rfl⟩ := last2 h2
    have hlen : (t ++ [x, y]).length - 2 = t.length := by simp
    rw [hlen, getD_app2_left] at hd
    have hlen1 : (t ++ [x, y]).length - 1 = t.length + 1 := by simp
    rw [hlen1, getD_app2_right] at hs
    exact ⟨t, by rw [hd, hs]⟩
  · rintro ⟨t, rfl⟩
    have hlen : (t ++ [dotB, starB]).length - 2 = t.length := by simp
    have hlen1 : (t ++ [dotB, starB]).length - 1 = t.length + 1 := by simp
    have h2 : 2 ≤ (t ++ [dotB, starB]).length := by
      simp only [List.length_append, List.length_cons, List.length_nil]
      omega
    simp only [endsDS, hlen, hlen1, getD_app2_left, getD_app2_right, Bool.and_eq_true,
      decide_eq_true_eq, beq_iff_eq]
    exact ⟨⟨h2, trivial⟩, trivial⟩

theorem take_dotstar (t : List Nat) :
    (t ++ [dotB, starB]).take ((t ++ [dotB, starB]).length - 2) = t := by
  have hlen : (t ++ [dotB, starB]).length - 2 = t.length := by simp
  rw [hlen, List.take_left]

theorem drop_dotstar (t : List Nat) :
    (t ++ [dotB, starB]).drop ((t ++ [dotB, starB]).length - 2) = [dotB, starB] := by
  have hlen : (t ++ [dotB, starB]).length - 2 = t.length := by simp
  rw [hlen, List.drop_left]

/-- The `.*`-shape test inside `specMatchB`, in `∃` form. -/
theorem specDS_iff {w : List Nat} :
    (decide (2 ≤ w.length) && (w.drop (w.length - 2) == [dotB, starB])) = true ↔
      ∃ t, w = t ++ [dotB, starB] := by
  constructor
  · intro h
    simp only [Bool.and_eq_true, decide_eq_true_eq, beq_iff_eq] at h
    obtain ⟨h2, hd⟩ := h
    exact ⟨w.take (w.length - 2), by
      conv_lhs => rw [← List.take_append_drop (w.length - 2) w]
      rw [hd]⟩
  · rintro ⟨t, rfl⟩
    have h2 : 2 ≤ (t ++ [dotB, starB]).length := by
      simp only [List.length_append, List.length_cons, List.length_nil]
      omega
    simp only [Bool.and_eq_true, decide_eq_true_eq, beq_iff_eq]
    exact ⟨h2, drop_dotstar t⟩

-- ## Prefix helpers

theorem pfxOf_iff {l₁ l₂ : List Nat} : l₁.isPrefixOf l₂ = true ↔ l₁ <+: l₂ :=
  List.isPrefixOf_iff_prefix

theorem extend_dot {t s : List Nat} (h : t <+: s) (hl : t.length < s.length)
    (hd : s.getD t.length 0 = dotB) : t ++ [dotB] <+: s := by
  obtain ⟨r, rfl⟩ := h
  rcases r with _ | ⟨a, r⟩
  · simp at hl
  · rw [List.getD_eq_getElem?_getD, List.getElem?_append_right (le_refl _)] at hd
    simp at hd
    subst hd
    exact ⟨r, by simp⟩

theorem contains_iff {α : Type} [BEq α] [LawfulBEq α] {l : List α} {a : α} :
    l.contains a = true ↔ a ∈ l := by
  simp

theorem getD_append_self (q r : List Nat) (x : Nat) :
    (q ++ x :: r).getD q.length 0 = x := by
  rw [List.getD_eq_getElem?_getD, List.getElem?_append_right (le_refl _)]
  simp

theorem getD_append_left {u : List Nat} (v : List Nat) {i : Nat} (h : i < u.length) :
    (u ++ v).getD i 0 = u.getD i 0 := by
  rw [List.getD_eq_getElem?_getD, List.getElem?_append_left h, List.getD_eq_getElem?_getD]

/-- Propositional form of `specMatchB`. -/
theorem specMatchB_iff {S : List (List Nat)} {key : List Nat} :
    specMatchB S key = true ↔
      key ∈ S ∨ ([starB] ∈ S ∧ key ≠ []) ∨
        ∃ t, (t ++ [dotB, starB]) ∈ S ∧ (key = t ∨ t ++ [dotB] <+: key) := by
  unfold specMatchB
  rw [Bool.or_eq_true, Bool.or_eq_true, Bool.and_eq_true, List.any_eq_true]
  constructor
  · rintro ((h | ⟨hs, hne⟩) | ⟨w, hw, hcond⟩)
    · exact Or.inl (contains_iff.mp h)
    · refine Or.inr (Or.inl ⟨contains_iff.mp hs, ?_⟩)
      intro hkey
      rw [hkey] at hne
      simp at hne
    · rw [Bool.and_eq_true, Bool.or_eq_true] at hcond
      obtain ⟨hds, hkey⟩ := hcond
      obtain ⟨t, rfl⟩ := specDS_iff.mp hds
      refine Or.inr (Or.inr ⟨t, hw, ?_⟩)
      rcases hkey with h1 | h1
      · left
        rw [take_dotstar] at h1
        exact eq_of_beq h1
      · right
        rw [take_dotstar] at h1
        exact pfxOf_iff.mp h1
  · rintro (h | ⟨hs, hne⟩ | ⟨t, hw, hcond⟩)
    · exact Or.inl (Or.inl (contains_iff.mpr h))
    · refine Or.inl (Or.inr ⟨contains_iff.mpr hs, ?_⟩)
      rcases key with _ | ⟨a, k⟩
      · exact absurd rfl hne
      · simp
    · refine Or.inr ⟨t ++ [dotB, starB], hw, ?_⟩
      rw [Bool.and_eq_true, Bool.or_eq_true]
      refine ⟨specDS_iff.mpr ⟨t, rfl⟩, ?_⟩
      rcases hcond with rfl | h1
      · left
        rw [take_dotstar]
        simp
      · right
        rw [take_dotstar]
        exact pfxOf_iff.mpr h1

/-- In a well-formed pattern, a `*` can only be the final byte, preceded by
`.` or alone: if `q ++ starB :: r` is well-formed then `r = []` and `q` is
empty or ends with a dotB. -/
theorem wfPattern_star {q r : List Nat} (h : wfPatternB (q ++ starB :: r) = true) :
    r = [] ∧ (q = [] ∨ ∃ t, q = t ++ [dotB]) := by
  have hcont : (q ++ starB :: r).contains starB = true := contains_iff.mpr (by simp)
  unfold wfPatternB at h
  rw [Bool.or_eq_true, Bool.or_eq_true] at h
  rcases h with (h | h) | h
  · rw [Bool.not_eq_true', hcont] at h
    exact absurd h (by simp)
  · have heq : q ++ starB :: r = [starB] := eq_of_beq h
    rcases q with _ | ⟨a, q'⟩
    · have h2 : starB :: r = [starB] := heq
      have h3 : r = [] := by
        have := List.tail_eq_of_cons_eq h2
        simpa using this
      exact ⟨h3, Or.inl rfl⟩
    · exfalso
      have hlen := congrArg List.length heq
      simp only [List.length_append, List.length_cons, List.length_nil] at hlen
      omega
  · rw [Bool.and_eq_true] at h
    obtain ⟨hds, hnc⟩ := h
    obtain ⟨t, hk⟩ := endsDS_iff.mp hds
    have hnt : starB ∉ t := by
      rw [hk, take_dotstar] at hnc
      intro hmem
      rw [Bool.not_eq_true', ← Bool.not_eq_true] at hnc
      exact hnc (contains_iff.mpr hmem)
    have hk' : q ++ starB :: r = (t ++ [dotB]) ++ [starB] := by
      rw [hk]; simp
    rcases Nat.lt_trichotomy q.length (t ++ [dotB]).length with hlt | hEq | hgt
    · exfalso
      have h1 : (q ++ starB :: r).getD q.length 0 = starB := getD_append_self q r starB
      rw [hk', getD_append_left _ hlt] at h1
      have hmem : starB ∈ t ++ [dotB] := by
        rw [← h1, List.getD_eq_getElem _ _ hlt]
        exact List.getElem_mem hlt
      rcases List.mem_append.mp hmem with hmt | hmd
      · exact hnt hmt
      · have hsd : starB = dotB := by simpa using hmd
        exact absurd hsd (by decide)
    · have hq : q = t ++ [dotB] := by
        have h1 : q <+: (q ++ starB :: r) := ⟨starB :: r, rfl⟩
        have h2 : (t ++ [dotB]) <+: (q ++ starB :: r) := by
          rw [hk']
          exact ⟨[starB], rfl⟩
        exact (List.prefix_of_prefix_length_le h1 h2 (le_of_eq hEq)).eq_of_length hEq
      have hr : starB :: r = [starB] := by
        have h3 := hk'
        rw [hq] at h3
        exact List.append_cancel_left h3
      have h4 : r = [] := by
        have := List.tail_eq_of_cons_eq hr
        simpa using this
      exact ⟨h4, Or.inr ⟨t, hq⟩⟩
    · exfalso
      have hlen := congrArg List.length hk'
      simp only [List.length_append, List.length_cons, List.length_nil] at hlen hgt
      omega

/-- If `q ++ c` ends in a dotB and `c` is non-empty, then `c` ends in a dotB. -/
theorem ends_dot_of {q c t : List Nat} (h : q ++ c = t ++ [dotB]) (hc : c ≠ []) :
    ∃ u, c = u ++ [dotB] := by
  rcases c.eq_nil_or_concat with rfl | ⟨u, y, rfl⟩
  · exact absurd rfl hc
  · rw [List.concat_eq_append] at h ⊢
    have hy : y = dotB := by
      have h1 := congrArg List.getLast? h
      rw [← List.append_assoc] at h1
      simpa using h1
    exact ⟨u, by rw [hy]⟩

/-- Lifting the spec-side match predicate from a child to its parent: if the
search remainder after consuming the edge label `c.pfx` spec-matches against
the child's stored keys, then the un-consumed search spec-matches against the
parent's stored keys.  The pattern-shape hypothesis is needed to interpret a
bare stored `*` below `c`: well-formedness forces the label path to end in a
dotB. -/
theorem lift_spec {n c : Node} {q s' : List Nat}
    (hshape : ∀ k ∈ keys n, wfPatternB (q ++ k) = true)
    (hc : EMem c n.es) (hcp : c.pfx ≠ [])
    (h : specMatchB (keys c) s' = true) :
    specMatchB (keys n) (c.pfx ++ s') = true := by
  rcases specMatchB_iff.mp h with h1 | ⟨h2, hne⟩ | ⟨t, hts, hkey⟩
  · exact specMatchB_iff.mpr (Or.inl (keys_append_mem hc h1))
  · have habs : (c.pfx ++ [starB]) ∈ keys n := keys_append_mem hc h2
    have hshape' : wfPatternB ((q ++ c.pfx) ++ starB :: []) = true := by
      have := hshape _ habs
      rwa [← List.append_assoc] at this
    rcases (wfPattern_star hshape').2 with hqe | ⟨t, hqt⟩
    · exact absurd (List.append_eq_nil.mp hqe).2 hcp
    · obtain ⟨u, hu⟩ := ends_dot_of hqt hcp
      have habs' : (u ++ [dotB, starB]) ∈ keys n := by
        have : c.pfx ++ [starB] = u ++ [dotB, starB] := by rw [hu]; simp
        rwa [this] at habs
      refine specMatchB_iff.mpr (Or.inr (Or.inr ⟨u, habs', Or.inr ?_⟩))
      rcases s' with _ | ⟨a, s''⟩
      · exact absurd rfl hne
      · exact ⟨a :: s'', by rw [hu]⟩
  · have habs : ((c.pfx ++ t) ++ [dotB, starB]) ∈ keys n := by
      have := keys_append_mem hc hts
      rwa [← List.append_assoc] at this
    refine specMatchB_iff.mpr (Or.inr (Or.inr ⟨c.pfx ++ t, habs, ?_⟩))
    rcases hkey with rfl | hpre
    · exact Or.inl rfl
    · obtain ⟨r, rfl⟩ := hpre
      exact Or.inr ⟨r, by simp⟩

theorem isEmpty_true_iff {l : List Nat} : l.isEmpty = true ↔ l = [] := by
  cases l <;> simp

theorem headD_append_cons (pp u v : List Nat) (x : Nat) :
    (pp ++ x :: u).headD 0 = (pp ++ x :: v).headD 0 := by
  cases pp <;> rfl

theorem mwwfEdges_none {es : EdgeList} {b : Nat} {o s : List Nat}
    (h : findE es b = none) : mwwfEdges es b o s = false := by
  rw [mwwfEdges_eq, h]

theorem mwwfEdges_some {es : EdgeList} {b : Nat} {o s : List Nat} {next : Node}
    (h : findE es b = some next) :
    mwwfEdges es b o s =
      (if dotstarHit next s then true
       else if next.pfx.isPrefixOf s then
         matchWithWildcardsFrom next o (s.drop next.pfx.length)
       else if s.isPrefixOf next.pfx then
         next.isLeaf && (s.length == next.pfx.length)
       else false) := by
  rw [mwwfEdges_eq, h]

/-- Soundness of the traversal at an arbitrary node: on a structurally
well-formed subtree whose stored keys, prefixed by the consumed path `q`,
are all well-formed patterns, a `true` result of `matchWithWildcardsFrom`
implies the spec-side predicate over the subtree's stored keys. -/
theorem mwwf_sound : ∀ n : Node, ∀ q o s : List Nat, wfS n = true →
    (∀ k ∈ keys n, wfPatternB (q ++ k) = true) →
    matchWithWildcardsFrom n o s = true → specMatchB (keys n) s = true := by
  intro n
  induction n using node_ind with
  | h p l es ih =>
    intro q o s hwf hshape hm
    rw [mwwf_mk] at hm
    by_cases hse : s.isEmpty = true
    · rw [if_pos hse] at hm
      have hs : s = [] := isEmpty_true_iff.mp hse
      subst hs
      exact specMatchB_iff.mpr (Or.inl (nil_mem_keys hm))
    · rw [if_neg hse] at hm
      have hsne : s ≠ [] := fun h => hse (by rw [h]; rfl)
      by_cases hsl : starLeafAt (.mk p l es) = true
      · unfold starLeafAt at hsl
        cases hge : getEdge (.mk p l es) starB with
        | none =>
          rw [hge] at hsl
          exact absurd (hsl : false = true) (by decide)
        | some w =>
          rw [hge] at hsl
          have hwleaf : w.isLeaf = true := hsl
          have hfw : findE es starB = some w := hge
          obtain ⟨hmem, hhead⟩ := findE_mem_head hfw
          have hwk : w.pfx ∈ keys (.mk p l es) := by
            have h1 := @keys_append_mem (.mk p l es) w [] hmem (nil_mem_keys hwleaf)
            simpa using h1
          cases hp : w.pfx with
          | nil =>
            rw [hp] at hhead
            simp at hhead
          | cons a t =>
            have ha : a = starB := by
              rw [hp] at hhead
              simpa using hhead
            subst ha
            have hw1 := hshape _ hwk
            rw [hp] at hw1
            have ht : t = [] := (wfPattern_star hw1).1
            subst ht
            rw [hp] at hwk
            exact specMatchB_iff.mpr (Or.inr (Or.inl ⟨hwk, hsne⟩))
      · rw [if_neg hsl] at hm
        cases hfe : findE es (s.headD 0) with
        | none =>
          rw [mwwfEdges_none hfe] at hm
          exact absurd hm (by decide)
        | some next =>
          rw [mwwfEdges_some hfe] at hm
          obtain ⟨hmem, hhead⟩ := findE_mem_head hfe
          have hnwf := wfE_mem (show wfE es = true from hwf) hmem
          by_cases hds : dotstarHit next s = true
          · unfold dotstarHit at hds
            rw [Bool.and_eq_true, Bool.and_eq_true, Bool.and_eq_true] at hds
            obtain ⟨⟨⟨hds1, hds2⟩, hds3⟩, hds4⟩ := hds
            obtain ⟨t, hpt⟩ := endsDS_iff.mp hds1
            have hk0 : next.pfx ∈ keys (.mk p l es) := by
              have h1 := @keys_append_mem (.mk p l es) next [] hmem (nil_mem_keys hds2)
              simpa using h1
            rw [hpt] at hk0
            rw [hpt, take_dotstar] at hds3
            have htpre : t <+: s := pfxOf_iff.mp hds3
            rw [hpt] at hds4
            have hlen2 : (t ++ [dotB, starB]).length - 2 = t.length := by simp
            rw [hlen2] at hds4
            rw [Bool.or_eq_true, Bool.and_eq_true] at hds4
            rcases hds4 with hb | ⟨hb1, hb2⟩
            · have hsl2 : s.length = t.length := by simpa using hb
              have hst : s = t := (htpre.eq_of_length hsl2.symm).symm
              exact specMatchB_iff.mpr (Or.inr (Or.inr ⟨t, hk0, Or.inl hst⟩))
            · have hlt : t.length < s.length := by simpa using hb1
              have hdotB : s.getD t.length 0 = dotB := by simpa using hb2
              exact specMatchB_iff.mpr (Or.inr (Or.inr ⟨t, hk0,
                Or.inr (extend_dot htpre hlt hdotB)⟩))
          · rw [if_neg hds] at hm
            by_cases hpre : next.pfx.isPrefixOf s = true
            · rw [if_pos hpre] at hm
              have hshape' : ∀ k ∈ keys next, wfPatternB ((q ++ next.pfx) ++ k) = true := by
                intro k hk
                have h1 := hshape _ (keys_append_mem hmem hk)
                rwa [List.append_assoc]
              have hrec := ih next hmem (q ++ next.pfx) o (s.drop next.pfx.length)
                hnwf.1 hshape' hm
              have hlift := @lift_spec (.mk p l es) next q (s.drop next.pfx.length)
                hshape hmem hnwf.2 hrec
              have hs_eq : next.pfx ++ s.drop next.pfx.length = s :=
                List.prefix_iff_eq_append.mp (pfxOf_iff.mp hpre)
              rwa [hs_eq] at hlift
            · rw [if_neg hpre] at hm
              by_cases hpre2 : s.isPrefixOf next.pfx = true
              · rw [if_pos hpre2] at hm
                rw [Bool.and_eq_true] at hm
                obtain ⟨hlf, hleq⟩ := hm
                have hsl3 : s.length = next.pfx.length := by simpa using hleq
                have hst : s = next.pfx := (pfxOf_iff.mp hpre2).eq_of_length hsl3
                have hmem2 : s ∈ keys (.mk p l es) := by
                  rw [hst]
                  have h1 := @keys_append_mem (.mk p l es) next [] hmem (nil_mem_keys hlf)
                  simpa using h1
                exact specMatchB_iff.mpr (Or.inl hmem2)
              · rw [if_neg hpre2] at hm
                exact absurd hm (by decide)

/-- Exact-match completeness of the traversal: on a structurally well-formed
subtree, a stored key is always matched, whatever other patterns exist. -/
theorem mwwf_exact : ∀ n : Node, ∀ o s : List Nat, wfS n = true → s ∈ keys n →
    matchWithWildcardsFrom n o s = true := by
  intro n
  induction n using node_ind with
  | h p l es ih =>
    intro o s hwf hs
    rw [mwwf_mk]
    rcases mem_keys.mp hs with ⟨hl, rfl⟩ | ⟨c, hc, k', rfl, hk'⟩
    · simp only [List.isEmpty_nil, if_true]
      exact hl
    · have hcwf := wfE_mem (show wfE es = true from hwf) hc
      have hse : ¬ ((c.pfx ++ k').isEmpty = true) := by
        rw [isEmpty_true_iff]
        intro h
        exact hcwf.2 (List.append_eq_nil.mp h).1
      rw [if_neg hse]
      by_cases hsl : starLeafAt (.mk p l es) = true
      · rw [if_pos hsl]
      · rw [if_neg hsl]
        obtain ⟨b0, t, hp⟩ : ∃ b0 t, c.pfx = b0 :: t := by
          cases hq : c.pfx with
          | nil => exact absurd hq hcwf.2
          | cons x y => exact ⟨x, y, rfl⟩
        have hhead : c.pfx.head? = some b0 := by rw [hp]; rfl
        have hheadD : (c.pfx ++ k').headD 0 = b0 := by rw [hp]; rfl
        have hfe : findE es b0 = some c :=
          findE_of_wfE (show wfE es = true from hwf) hc hhead
        rw [hheadD, mwwfEdges_some hfe]
        by_cases hds : dotstarHit c (c.pfx ++ k') = true
        · rw [if_pos hds]
        · rw [if_neg hds]
          have hpre : c.pfx.isPrefixOf (c.pfx ++ k') = true :=
            pfxOf_iff.mpr ⟨k', rfl⟩
          rw [if_pos hpre, List.drop_left]
          exact ih c hc o k' hcwf.1 hk'

/-- If a bare `*` is stored directly below `n`, any non-empty search matches
immediately via the wildcard-child check of lines 45-49. -/
theorem star_mem_match (n : Node) (o s : List Nat) (hwf : wfS n = true)
    (hstar : [starB] ∈ keys n) (hs : s ≠ []) :
    matchWithWildcardsFrom n o s = true := by
  cases n with
  | mk p l es =>
    rw [mwwf_mk]
    rw [if_neg (fun h => hs (isEmpty_true_iff.mp h))]
    rcases mem_keys.mp hstar with ⟨_, habs⟩ | ⟨c, hc, k', hck, hk'⟩
    · exact absurd habs (by simp)
    · have hcwf := wfE_mem (show wfE es = true from hwf) hc
      have hcp : c.pfx = [starB] ∧ k' = [] := by
        obtain ⟨a, t, hp⟩ : ∃ a t, c.pfx = a :: t := by
          cases hq : c.pfx with
          | nil => exact absurd hq hcwf.2
          | cons x y => exact ⟨x, y, rfl⟩
        rw [hp, List.cons_append] at hck
        injection hck with h1 h2
        have h3 := List.append_eq_nil.mp h2.symm
        constructor
        · rw [hp, h3.1, ← h1]
        · exact h3.2
      obtain ⟨hcp1, hk0⟩ := hcp
      subst hk0
      have hcl : c.isLeaf = true := isLeaf_of_nil_mem hcwf.1 hk'
      have hsl : starLeafAt (.mk p l es) = true := by
        unfold starLeafAt
        have hfe : findE es starB = some c :=
          findE_of_wfE (show wfE es = true from hwf) hc (by rw [hcp1]; rfl)
        have hge : getEdge (.mk p l es) starB = some c := hfe
        rw [hge]
        exact hcl
      rw [if_pos hsl]

/-- Wildcard completeness of the traversal: if `pp ++ ".*"` is stored in a
structurally well-formed subtree, any search of the form `pp ++ "." ++ s`
with non-empty `s` matches, however the radix structure splits the edges. -/
theorem mwwf_wild : ∀ n : Node, ∀ o pp s : List Nat, wfS n = true →
    (pp ++ [dotB, starB]) ∈ keys n → s ≠ [] →
    matchWithWildcardsFrom n o (pp ++ dotB :: s) = true := by
  intro n
  induction n using node_ind with
  | h p l es ih =>
    intro o pp s hwf hpat hs
    rw [mwwf_mk]
    have hne : (pp ++ dotB :: s) ≠ [] := by simp
    rw [if_neg (fun h => hne (isEmpty_true_iff.mp h))]
    by_cases hsl : starLeafAt (.mk p l es) = true
    · rw [if_pos hsl]
    · rw [if_neg hsl]
      rcases mem_keys.mp hpat with ⟨_, habs⟩ | ⟨c, hc, k', hck, hk'⟩
      · exact absurd habs (by simp)
      · have hcwf := wfE_mem (show wfE es = true from hwf) hc
        obtain ⟨b0, t, hp⟩ : ∃ b0 t, c.pfx = b0 :: t := by
          cases hq : c.pfx with
          | nil => exact absurd hq hcwf.2
          | cons x y => exact ⟨x, y, rfl⟩
        have hb0 : (pp ++ dotB :: s).headD 0 = b0 := by
          rw [headD_append_cons pp s [starB] dotB, hck, hp]
          cases t <;> rfl
        rw [hb0]
        have hfe : findE es b0 = some c :=
          findE_of_wfE (show wfE es = true from hwf) hc (by rw [hp]; rfl)
        rw [mwwfEdges_some hfe]
        by_cases hds : dotstarHit c (pp ++ dotB :: s) = true
        · rw [if_pos hds]
        · rw [if_neg hds]
          rcases lt_trichotomy c.pfx.length (pp.length + 1) with hlt | hEq | hgt
          · have hple : c.pfx.length ≤ pp.length := by omega
            have hcpfx_pre : c.pfx <+: pp := by
              have h1 : c.pfx <+: (pp ++ [dotB, starB]) := ⟨k', hck.symm⟩
              have h2 : pp <+: (pp ++ [dotB, starB]) := ⟨[dotB, starB], rfl⟩
              exact List.prefix_of_prefix_length_le h1 h2 hple
            obtain ⟨p2, hp2⟩ := hcpfx_pre
            have hk'eq : k' = p2 ++ [dotB, starB] := by
              have h3 : c.pfx ++ k' = c.pfx ++ (p2 ++ [dotB, starB]) := by
                rw [← hck, ← hp2, List.append_assoc]
              exact List.append_cancel_left h3
            have hsearch : pp ++ dotB :: s = c.pfx ++ (p2 ++ dotB :: s) := by
              rw [← hp2, List.append_assoc]
            have hpre : c.pfx.isPrefixOf (pp ++ dotB :: s) = true := by
              rw [hsearch]
              exact pfxOf_iff.mpr ⟨_, rfl⟩
            rw [if_pos hpre, hsearch, List.drop_left]
            refine ih c hc o p2 s hcwf.1 ?_ hs
            rw [← hk'eq]
            exact hk'
          · have h1 : c.pfx <+: (pp ++ [dotB, starB]) := ⟨k', hck.symm⟩
            have h2 : (pp ++ [dotB]) <+: (pp ++ [dotB, starB]) := by
              refine ⟨[starB], ?_⟩
              simp
            have hcpeq : c.pfx = pp ++ [dotB] := by
              have h3 : c.pfx <+: (pp ++ [dotB]) :=
                List.prefix_of_prefix_length_le h1 h2 (by simp [hEq])
              refine h3.eq_of_length ?_
              simp only [List.length_append, List.length_cons, List.length_nil]
              omega
            have hk'star : k' = [starB] := by
              have h4 : c.pfx ++ k' = (pp ++ [dotB]) ++ [starB] := by
                rw [← hck]
                simp
              rw [hcpeq] at h4
              exact List.append_cancel_left h4
            have hpre : c.pfx.isPrefixOf (pp ++ dotB :: s) = true := by
              rw [hcpeq]
              exact pfxOf_iff.mpr ⟨s, by simp⟩
            rw [if_pos hpre]
            have hdrop : (pp ++ dotB :: s).drop c.pfx.length = s := by
              rw [hcpeq]
              have h5 : pp ++ dotB :: s = (pp ++ [dotB]) ++ s := by simp
              rw [h5, List.drop_left]
            rw [hdrop]
            refine star_mem_match c o s hcwf.1 ?_ hs
            rw [← hk'star]
            exact hk'
          · have hlenck := congrArg List.length hck
            simp only [List.length_append, List.length_cons, List.length_nil] at hlenck
            have hk'nil : k' = [] := by
              have : k'.length = 0 := by omega
              exact List.eq_nil_of_length_eq_zero this
            subst hk'nil
            have hcpeq : c.pfx = pp ++ [dotB, starB] := by
              rw [List.append_nil] at hck
              exact hck.symm
            have hcl : c.isLeaf = true := isLeaf_of_nil_mem hcwf.1 hk'
            exfalso
            apply hds
            unfold dotstarHit
            rw [Bool.and_eq_true, Bool.and_eq_true, Bool.and_eq_true]
            refine ⟨⟨⟨?_, hcl⟩, ?_⟩, ?_⟩
            · rw [hcpeq]
              exact endsDS_iff.mpr ⟨pp, rfl⟩
            · rw [hcpeq, take_dotstar]
              exact pfxOf_iff.mpr ⟨dotB :: s, rfl⟩
            · rw [hcpeq]
              have hlen2 : (pp ++ [dotB, starB]).length - 2 = pp.length := by simp
              rw [hlen2, Bool.or_eq_true]
              right
              rw [Bool.and_eq_true]
              constructor
              · rw [decide_eq_true_eq]
                simp only [List.length_append, List.length_cons]
                omega
              · rw [getD_append_self]
                simp

mutual
/-- Some node of the tree has a terminal child reached by an edge whose
label's first byte is `*` (the shape detected by lines 45-49). -/
def hasStarLeaf : Node → Bool
| .mk _ _ es => hslE es
/-- The same test over an edge list and all subtrees below it. -/
def hslE : EdgeList → Bool
| .enil => false
| .econs c cs => ((c.pfx.head? == some starB) && c.isLeaf) || hasStarLeaf c || hslE cs
end

mutual
/-- Some node of the tree has a terminal child whose edge label's literal
final two bytes are `.*` (the shape detected by lines 57-61). -/
def hasDotStarT : Node → Bool
| .mk _ _ es => hdsE es
/-- The same test over an edge list and all subtrees below it. -/
def hdsE : EdgeList → Bool
| .enil => false
| .econs c cs => (endsDS c.pfx && c.isLeaf) || hasDotStarT c || hdsE cs
end

theorem hslE_of_mem : ∀ {es : EdgeList} {c : Node}, EMem c es →
    (c.pfx.head? == some starB) = true → c.isLeaf = true → hslE es = true := by
  intro es
  induction es using elist_ind with
  | enil => intro c h; simp [EMem] at h
  | econs d ds ih =>
    intro c hm hh hl
    simp only [hslE, Bool.or_eq_true, Bool.and_eq_true]
    rcases hm with rfl | hm
    · exact Or.inl (Or.inl ⟨hh, hl⟩)
    · exact Or.inr (ih hm hh hl)

theorem hslE_lift : ∀ {es : EdgeList} {c : Node}, EMem c es →
    hasStarLeaf c = true → hslE es = true := by
  intro es
  induction es using elist_ind with
  | enil => intro c h; simp [EMem] at h
  | econs d ds ih =>
    intro c hm hsl
    simp only [hslE, Bool.or_eq_true]
    rcases hm with rfl | hm
    · exact Or.inl (Or.inr hsl)
    · exact Or.inr (ih hm hsl)

theorem hdsE_of_mem : ∀ {es : EdgeList} {c : Node}, EMem c es →
    endsDS c.pfx = true → c.isLeaf = true → hdsE es = true := by
  intro es
  induction es using elist_ind with
  | enil => intro c h; simp [EMem] at h
  | econs d ds ih =>
    intro c hm hh hl
    simp only [hdsE, Bool.or_eq_true, Bool.and_eq_true]
    rcases hm with rfl | hm
    · exact Or.inl (Or.inl ⟨hh, hl⟩)
    · exact Or.inr (ih hm hh hl)

theorem hdsE_lift : ∀ {es : EdgeList} {c : Node}, EMem c es →
    hasDotStarT c = true → hdsE es = true := by
  intro es
  induction es using elist_ind with
  | enil => intro c h; simp [EMem] at h
  | econs d ds ih =>
    intro c hm hds
    simp only [hdsE, Bool.or_eq_true]
    rcases hm with rfl | hm
    · exact Or.inl (Or.inr hds)
    · exact Or.inr (ih hm hds)

/-- Every `true` result of the traversal is an exact stored key, or the tree
contains a terminal `*`-headed child edge, or the tree contains a terminal
edge whose label ends in the literal bytes `.*`.  No well-formedness is
assumed. -/
theorem mwwf_sources : ∀ n : Node, ∀ o s : List Nat,
    matchWithWildcardsFrom n o s = true →
    s ∈ keys n ∨ hasStarLeaf n = true ∨ hasDotStarT n = true := by
  intro n
  induction n using node_ind with
  | h p l es ih =>
    intro o s hm
    rw [mwwf_mk] at hm
    by_cases hse : s.isEmpty = true
    · rw [if_pos hse] at hm
      have hs : s = [] := isEmpty_true_iff.mp hse
      subst hs
      exact Or.inl (nil_mem_keys hm)
    · rw [if_neg hse] at hm
      by_cases hsl : starLeafAt (.mk p l es) = true
      · unfold starLeafAt at hsl
        cases hge : getEdge (.mk p l es) starB with
        | none =>
          rw [hge] at hsl
          exact absurd (hsl : false = true) (by decide)
        | some w =>
          rw [hge] at hsl
          obtain ⟨hmem, hhead⟩ := findE_mem_head (show findE es starB = some w from hge)
          exact Or.inr (Or.inl (hslE_of_mem hmem (by rw [hhead]; rfl) hsl))
      · rw [if_neg hsl] at hm
        cases hfe : findE es (s.headD 0) with
        | none =>
          rw [mwwfEdges_none hfe] at hm
          exact absurd hm (by decide)
        | some next =>
          rw [mwwfEdges_some hfe] at hm
          obtain ⟨hmem, hhead⟩ := findE_mem_head hfe
          by_cases hds : dotstarHit next s = true
          · have hds' := hds
            unfold dotstarHit at hds'
            rw [Bool.and_eq_true, Bool.and_eq_true, Bool.and_eq_true] at hds'
            exact Or.inr (Or.inr (hdsE_of_mem hmem hds'.1.1.1 hds'.1.1.2))
          · rw [if_neg hds] at hm
            by_cases hpre : next.pfx.isPrefixOf s = true
            · rw [if_pos hpre] at hm
              rcases ih next hmem o _ hm with h1 | h1 | h1
              · left
                have hs_eq : next.pfx ++ s.drop next.pfx.length = s :=
                  List.prefix_iff_eq_append.mp (pfxOf_iff.mp hpre)
                rw [← hs_eq]
                exact keys_append_mem hmem h1
              · exact Or.inr (Or.inl (hslE_lift hmem h1))
              · exact Or.inr (Or.inr (hdsE_lift hmem h1))
            · rw [if_neg hpre] at hm
              by_cases hpre2 : s.isPrefixOf next.pfx = true
              · rw [if_pos hpre2] at hm
                rw [Bool.and_eq_true] at hm
                obtain ⟨hlf, hleq⟩ := hm
                have hst : s = next.pfx :=
                  (pfxOf_iff.mp hpre2).eq_of_length (by simpa using hleq)
                left
                rw [hst]
                have h1 := @keys_append_mem (.mk p l es) next [] hmem (nil_mem_keys hlf)
                simpa using h1
              · rw [if_neg hpre2] at hm
                exact absurd hm (by decide)

/-- On trees with non-empty edge labels, the fuel-bounded traversal agrees
with the real one whenever the fuel exceeds the search length: each
recursive step consumes a non-empty edge label from the search. -/
theorem fuel_eq_mwwf : ∀ (fuel : Nat) (n : Node) (o s : List Nat), edgesNE n = true →
    s.length < fuel → matchFromFuel fuel n o s = matchWithWildcardsFrom n o s := by
  intro fuel
  induction fuel with
  | zero =>
    intro n o s _ h
    exact absurd h (Nat.not_lt_zero _)
  | succ f ihf =>
    intro n o s hne hlen
    cases n with
    | mk p l es =>
      simp only [matchFromFuel, mwwf_mk]
      by_cases hse : s.isEmpty = true
      · rw [if_pos hse, if_pos hse]
        rfl
      · rw [if_neg hse, if_neg hse]
        by_cases hsl : starLeafAt (.mk p l es) = true
        · rw [if_pos hsl, if_pos hsl]
        · rw [if_neg hsl, if_neg hsl]
          cases hfe : findE es (s.headD 0) with
          | none =>
            have hge : getEdge (.mk p l es) (s.headD 0) = none := hfe
            simp only [hge, mwwfEdges_none hfe]
          | some next =>
            have hge : getEdge (.mk p l es) (s.headD 0) = some next := hfe
            simp only [hge, mwwfEdges_some hfe]
            by_cases hds : dotstarHit next s = true
            · rw [if_pos hds, if_pos hds]
            · rw [if_neg hds, if_neg hds]
              by_cases hpre : next.pfx.isPrefixOf s = true
              · rw [if_pos hpre, if_pos hpre]
                obtain ⟨hmem, _⟩ := findE_mem_head hfe
                have hnne := edgesNEE_mem (show edgesNEE es = true from hne) hmem
                apply ihf next o (s.drop next.pfx.length) hnne.1
                have hplen : 1 ≤ next.pfx.length := by
                  cases hq : next.pfx with
                  | nil => exact absurd hq hnne.2
                  | cons a t => simp
                have hslen : 1 ≤ s.length := by
                  rcases s with _ | ⟨a, t⟩
                  · exact absurd rfl hse
                  · simp
                simp only [List.length_drop]
                omega
              · rw [if_neg hpre, if_neg hpre]

/-- The `originalKey` argument is carried but never read: the traversal
yields the same result for any two values of it. -/
theorem mwwf_originalKey : ∀ n : Node, ∀ o1 o2 s : List Nat,
    matchWithWildcardsFrom n o1 s = matchWithWildcardsFrom n o2 s := by
  intro n
  induction n using node_ind with
  | h p l es ih =>
    intro o1 o2 s
    rw [mwwf_mk, mwwf_mk]
    by_cases hse : s.isEmpty = true
    · rw [if_pos hse, if_pos hse]
    · rw [if_neg hse, if_neg hse]
      by_cases hsl : starLeafAt (.mk p l es) = true
      · rw [if_pos hsl, if_pos hsl]
      · rw [if_neg hsl, if_neg hsl]
        cases hfe : findE es (s.headD 0) with
        | none => rw [mwwfEdges_none hfe, mwwfEdges_none hfe]
        | some next =>
          rw [mwwfEdges_some hfe, mwwfEdges_some hfe]
          by_cases hds : dotstarHit next s = true
          · rw [if_pos hds, if_pos hds]
          · rw [if_neg hds, if_neg hds]
            by_cases hpre : next.pfx.isPrefixOf s = true
            · rw [if_pos hpre, if_pos hpre]
              exact ih next (findE_mem_head hfe).1 o1 o2 _
            · rw [if_neg hpre, if_neg hpre]

/-- The shorter-remainder fall-through (lines 74-85): when the earlier
checks did not fire and the remaining search does not start with the edge
label, the traversal returns `false` — in particular the branch of lines
78-82 never yields `true`. -/
theorem mwwf_fallthrough_false {n : Node} {o s : List Nat} {next : Node}
    (hs : s ≠ []) (hsl : starLeafAt n = false)
    (hfe : getEdge n (s.headD 0) = some next)
    (hds : dotstarHit next s = false)
    (hpre : next.pfx.isPrefixOf s = false) :
    matchWithWildcardsFrom n o s = false := by
  cases n with
  | mk p l es =>
    rw [mwwf_mk]
    rw [if_neg (fun h => hs (isEmpty_true_iff.mp h))]
    rw [if_neg (by rw [hsl]; exact Bool.false_ne_true)]
    rw [mwwfEdges_some (show findE es (s.headD 0) = some next from hfe)]
    rw [if_neg (by rw [hds]; exact Bool.false_ne_true)]
    rw [if_neg (by rw [hpre]; exact Bool.false_ne_true)]
    by_cases hpre2 : s.isPrefixOf next.pfx = true
    · rw [if_pos hpre2]
      have hlen : s.length ≠ next.pfx.length := by
        intro he
        have hst : s = next.pfx := (pfxOf_iff.mp hpre2).eq_of_length he
        rw [hst] at hpre
        have hrefl : next.pfx.isPrefixOf next.pfx = true := pfxOf_iff.mpr ⟨[], by simp⟩
        rw [hrefl] at hpre
        exact absurd hpre (by decide)
      have hbeq : (s.length == next.pfx.length) = false := by
        rw [beq_eq_false_iff_ne]
        exact hlen
      rw [hbeq, Bool.and_false]
    · rw [if_neg hpre2]

-- ## Concrete trees used in the claim witnesses and counterexamples

/-- tree for `{"a.b.*", "a.b.c"}` as the radix structure stores it. -/
def exSplit : Node :=
  .mk [] false (.econs
    (.mk [97, dotB, 98, dotB] false (.econs
      (.mk [starB] true .enil) (.econs
      (.mk [99] true .enil) .enil))) .enil)


/-- tree for the malformed patterns `{"a.*x", "a.c"}`. -/
def exMalformed : Node :=
  .mk [] false (.econs
    (.mk [97, dotB] false (.econs
      (.mk [starB, 120] true .enil) (.econs
      (.mk [99] true .enil) .enil))) .enil)


/-- tree for the single pattern `{"a.*"}`. -/
def exWild : Node :=
  .mk [] false (.econs (.mk [97, dotB, starB] true .enil) .enil)

/-- the single child of `exEdge`, carrying the whole label `"b.*"`. -/
def exEdgeChild : Node :=
  .mk [98, dotB, starB] true .enil

/-- tree for the single pattern `{"b.*"}`. -/
def exEdge : Node :=
  .mk [] false (.econs exEdgeChild .enil)

/-- the single child of `exPlain`, carrying the whole label `"bc"`. -/
def exPlainChild : Node :=
  .mk [98, 99] true .enil

/-- tree for the single pattern `{"bc"}`. -/
def exPlain : Node :=
  .mk [] false (.econs exPlainChild .enil)

/-- tree for `{"t.*", "txf"}` as the radix structure stores it. -/
def exC5 : Node :=
  .mk [] false (.econs
    (.mk [116] false (.econs
      (.mk [dotB, starB] true .enil) (.econs
      (.mk [120, 102] true .enil) .enil))) .enil)

/-- tree for the single pattern `{"t.*"}`. -/
def exC5only : Node :=
  .mk [] false (.econs (.mk [116, dotB, starB] true .enil) .enil)

/-- tree for the single pattern `{"*"}`. -/
def exStar : Node :=
  .mk [] false (.econs (.mk [starB] true .enil) .enil)

/-- Top-level soundness: on a well-formed tree, a `true` answer of
`MatchWithWildcards` implies the spec-side predicate over the stored keys. -/
theorem match_sound_top (t : Node) (key : List Nat)
    (hwf : wellFormedB t = true) (hm : MatchWithWildcards t key = true) :
    specMatchB (keys t) key = true := by
  unfold MatchWithWildcards at hm
  by_cases hke : key.isEmpty = true
  · rw [if_pos hke] at hm
    exact specMatchB_iff.mpr (Or.inl (contains_iff.mp hm))
  · rw [if_neg hke] at hm
    by_cases hstar : getMem t [starB] = true
    · refine specMatchB_iff.mpr (Or.inr (Or.inl ⟨contains_iff.mp hstar, ?_⟩))
      exact fun h => hke (by rw [h]; rfl)
    · rw [if_neg hstar] at hm
      unfold wellFormedB at hwf
      rw [Bool.and_eq_true] at hwf
      refine mwwf_sound t [] key key hwf.1 ?_ hm
      intro k hk
      exact List.all_eq_true.mp hwf.2 k hk

-- ## Claim theorems

/-- C1 (counterexample): the claimed equivalence fails as stated.  The tree
storing `{"a.b.*", "a.b.c"}` is well-formed and the spec-side predicate
accepts the key `"a.b"` (since `"a.b" ++ ".*"` is stored), yet
`MatchWithWildcards` returns `false`: the radix split around `"a.b."`
separates the `*` from its dot, and the descent for `"a.b"` ends mid-edge. -/
theorem C1_counterexample :
    wellFormedB exSplit = true ∧
    specMatchB (keys exSplit) [97, dotB, 98] = true ∧
    MatchWithWildcards exSplit [97, dotB, 98] = false := by
  refine ⟨by decide, by decide, by decide⟩

/-- C1 (amended): only the soundness direction holds.  For every well-formed
tree and key, a `true` result of `MatchWithWildcards` implies that the key is
an exact stored pattern, or some segment-boundary prefix of the key followed
by `".*"` is stored, or `"*"` is stored and the key is non-empty; the
converse can fail when the radix structure splits a `".*"` pattern's edge. -/
theorem C1_amended (t : Node) (key : List Nat)
    (hwf : wellFormedB t = true) (hm : MatchWithWildcards t key = true) :
    specMatchB (keys t) key = true :=
  match_sound_top t key hwf hm

/-- C1 (witness): the amended theorem applied at the split tree with the
stored exact key `"a.b.c"`. -/
theorem C1_amended_witness :
    wellFormedB exSplit = true ∧
    MatchWithWildcards exSplit [97, dotB, 98, dotB, 99] = true ∧
    specMatchB (keys exSplit) [97, dotB, 98, dotB, 99] = true :=
  ⟨by decide, by decide,
    C1_amended exSplit [97, dotB, 98, dotB, 99] (by decide) (by decide)⟩

/-- C2 (counterexample): with `p = "a.b"` (non-empty, no trailing dot) the
pattern `p ++ ".*"` is stored in the well-formed tree for
`{"a.b.*", "a.b.c"}`, yet the keys `k = p` and `k = p ++ "."` — both allowed
by the claim — are rejected. -/
theorem C2_counterexample :
    wellFormedB exSplit = true ∧
    ([97, dotB, 98] ++ [dotB, starB]) ∈ keys exSplit ∧
    MatchWithWildcards exSplit [97, dotB, 98] = false ∧
    MatchWithWildcards exSplit ([97, dotB, 98] ++ [dotB]) = false := by
  refine ⟨by decide, by decide, by decide, by decide⟩

/-- C2 (amended): if `p ++ ".*"` is stored (`p` non-empty with no trailing
dot) then every key that strictly extends `p ++ "."` — i.e. every
`k = p ++ "." ++ s` with `s` non-empty — matches, regardless of which other
patterns are stored and of how the radix tree splits edges around `p`; the
keys `k = p` and `k = p ++ "."` themselves may fail when the split separates
the wildcard from its dot. -/
theorem C2_amended (t : Node) (pp s : List Nat)
    (hwf : wellFormedB t = true)
    (hpat : (pp ++ [dotB, starB]) ∈ keys t)
    (_hppne : pp ≠ []) (_hnd : pp.getLast? ≠ some dotB)
    (hs : s ≠ []) :
    MatchWithWildcards t (pp ++ dotB :: s) = true := by
  unfold MatchWithWildcards
  have hne : (pp ++ dotB :: s) ≠ [] := by simp
  rw [if_neg (fun h => hne (isEmpty_true_iff.mp h))]
  by_cases hstar : getMem t [starB] = true
  · rw [if_pos hstar]
  · rw [if_neg hstar]
    unfold wellFormedB at hwf
    rw [Bool.and_eq_true] at hwf
    exact mwwf_wild t (pp ++ dotB :: s) pp s hwf.1 hpat hs

/-- C2 (witness): the amended theorem applied at the tree storing `"a.*"`
with key `"a.b"`. -/
theorem C2_amended_witness :
    wellFormedB exWild = true ∧
    ([97] ++ [dotB, starB]) ∈ keys exWild ∧
    MatchWithWildcards exWild ([97] ++ dotB :: [98]) = true :=
  ⟨by decide, by decide,
    C2_amended exWild [97] [98] (by decide) (by decide) (by decide)
      (by decide) (by decide)⟩

/-- C3 (counterexample): a malformed pattern can cause a wildcard match even
though no edge label in the tree ends in the literal bytes `".*"`.  The tree
for `{"a.*x", "a.c"}` accepts the key `"a.b"` — which is not stored, and
which the spec predicate rejects — through the `*`-headed child edge `"*x"`
created by the radix split. -/
theorem C3_counterexample :
    MatchWithWildcards exMalformed [97, dotB, 98] = true ∧
    hasDotStarT exMalformed = false ∧
    specMatchB (keys exMalformed) [97, dotB, 98] = false ∧
    [97, dotB, 98] ∉ keys exMalformed := by
  refine ⟨by decide, by decide, by decide, by decide⟩

/-- C3 (amended): a wildcard match can arise in two ways, not one: every
`true` result of `MatchWithWildcards` means the key is an exact stored
pattern, or `"*"` is stored at the root, or the tree contains a terminal
child reached by an edge whose label's first byte is `*` (lines 45-49 —
malformed patterns can contribute here), or the tree contains a terminal
edge whose label's literal final two bytes are `".*"` (lines 57-61). -/
theorem C3_amended (t : Node) (key : List Nat)
    (hm : MatchWithWildcards t key = true) :
    key ∈ keys t ∨ [starB] ∈ keys t ∨
      hasStarLeaf t = true ∨ hasDotStarT t = true := by
  unfold MatchWithWildcards at hm
  by_cases hke : key.isEmpty = true
  · rw [if_pos hke] at hm
    exact Or.inl (contains_iff.mp hm)
  · rw [if_neg hke] at hm
    by_cases hstar : getMem t [starB] = true
    · exact Or.inr (Or.inl (contains_iff.mp hstar))
    · rw [if_neg hstar] at hm
      rcases mwwf_sources t key key hm with h | h | h
      · exact Or.inl h
      · exact Or.inr (Or.inr (Or.inl h))
      · exact Or.inr (Or.inr (Or.inr h))

/-- C3 (witness): the amended theorem applied at the malformed tree on the
matching key `"a.b"`. -/
theorem C3_amended_witness :
    MatchWithWildcards exMalformed [97, dotB, 98] = true ∧
    ([97, dotB, 98] ∈ keys exMalformed ∨ [starB] ∈ keys exMalformed ∨
      hasStarLeaf exMalformed = true ∨ hasDotStarT exMalformed = true) :=
  ⟨by decide, C3_amended exMalformed [97, dotB, 98] (by decide)⟩

/-- C4 (counterexample): the claim's condition does not force a `false`
result of the whole function.  In the tree storing `"b.*"`, for the key
`"b"` the next edge's label `"b.*"` has the search as a strict prefix
(`HasPrefix(next.prefix, search)` holds, `HasPrefix(search, next.prefix)`
does not), yet the function returns `true` — through the wildcard-suffix
check, before the shorter-remainder branch is reached. -/
theorem C4_counterexample :
    getEdge exEdge 98 = some exEdgeChild ∧
    ([98] : List Nat).isPrefixOf exEdgeChild.pfx = true ∧
    exEdgeChild.pfx.isPrefixOf [98] = false ∧
    MatchWithWildcards exEdge [98] = true :=
  ⟨rfl, by decide, by decide, by decide⟩

/-- C4 (amended): scoped to the branch itself the claim holds: when the
traversal reaches the prefix-comparison chain (search non-empty, no `*`
child leaf, an edge found, wildcard-suffix check failed) and the search does
not start with the edge label, the function returns `false`; in particular
the shorter-remainder branch of lines 78-82 never produces `true`, because
its guard forces the search strictly shorter than the label while its result
requires equal lengths. -/
theorem C4_amended {n : Node} {o s : List Nat} {next : Node}
    (hs : s ≠ []) (hsl : starLeafAt n = false)
    (hfe : getEdge n (s.headD 0) = some next)
    (hds : dotstarHit next s = false)
    (hpre : next.pfx.isPrefixOf s = false) :
    matchWithWildcardsFrom n o s = false :=
  mwwf_fallthrough_false hs hsl hfe hds hpre

/-- C4 (witness): the amended theorem applied at the tree storing `"bc"`
with search `"b"`, which is a strict prefix of the edge label. -/
theorem C4_amended_witness :
    ([98] : List Nat) ≠ [] ∧
    matchWithWildcardsFrom exPlain [98] [98] = false :=
  ⟨by decide,
    @C4_amended exPlain [98] [98] exPlainChild (by decide) (by decide) rfl
      (by decide) (by decide)⟩

/-- C5 (counterexample): the claim fails as stated because other stored
patterns can still match the key.  In the well-formed tree for
`{"t.*", "txf"}`, the key `"txf"` starts with the raw bytes of `p = "t"`,
differs from `p`, and its next byte is `x`, not `.` — yet
`MatchWithWildcards` returns `true`, via the exact stored pattern `"txf"`. -/
theorem C5_counterexample :
    wellFormedB exC5 = true ∧
    ([116] ++ [dotB, starB]) ∈ keys exC5 ∧
    ([116] : List Nat).isPrefixOf [116, 120, 102] = true ∧
    ([116, 120, 102] : List Nat) ≠ [116] ∧
    ([116, 120, 102] : List Nat).getD 1 0 ≠ dotB ∧
    MatchWithWildcards exC5 [116, 120, 102] = true := by
  refine ⟨by decide, by decide, by decide, by decide, by decide, by decide⟩

/-- C5 (amended): the wildcard pattern itself never produces such a match:
if `p ++ ".*"` is the only stored pattern of a structurally well-formed
tree (`*` not occurring in `p`), then for every key that starts with the raw
bytes of `p`, is not equal to `p`, and whose next byte after `p` is not
`.`, `MatchWithWildcards` returns `false`. -/
theorem C5_amended (t : Node) (pp k : List Nat)
    (hwf : wfS t = true) (honly : keys t = [pp ++ [dotB, starB]])
    (hnostar : starB ∉ pp)
    (hkpre : pp.isPrefixOf k = true) (hknp : k ≠ pp)
    (hnd : k.getD pp.length 0 ≠ dotB) :
    MatchWithWildcards t k = false := by
  by_cases hm : MatchWithWildcards t k = true
  · exfalso
    have hwfB : wellFormedB t = true := by
      unfold wellFormedB
      rw [Bool.and_eq_true]
      refine ⟨hwf, ?_⟩
      rw [honly]
      simp only [List.all_cons, List.all_nil, Bool.and_true]
      unfold wfPatternB
      rw [Bool.or_eq_true]
      right
      rw [Bool.and_eq_true]
      refine ⟨endsDS_iff.mpr ⟨pp, rfl⟩, ?_⟩
      rw [take_dotstar, Bool.not_eq_true']
      cases hcb : pp.contains starB
      · rfl
      · exact absurd (contains_iff.mp hcb) hnostar
    have hspec := match_sound_top t k hwfB hm
    rcases specMatchB_iff.mp hspec with h1 | ⟨h2, _⟩ | ⟨t2, hts, hkey⟩
    · rw [honly] at h1
      have hk1 : k = pp ++ [dotB, starB] := by simpa using h1
      apply hnd
      rw [hk1]
      exact getD_append_self pp [starB] dotB
    · rw [honly] at h2
      have h3 : [starB] = pp ++ [dotB, starB] := by simpa using h2
      have h4 := congrArg List.length h3
      simp only [List.length_append, List.length_cons, List.length_nil] at h4
      omega
    · rw [honly] at hts
      have h4 : t2 ++ [dotB, starB] = pp ++ [dotB, starB] := by simpa using hts
      have ht2 : t2 = pp := by
        have h5 := take_dotstar t2
        rw [h4, take_dotstar] at h5
        exact h5.symm
      subst ht2
      rcases hkey with rfl | hp2
      · exact hknp rfl
      · apply hnd
        obtain ⟨r, hr⟩ := hp2
        rw [← hr, List.append_assoc]
        exact getD_append_self t2 r dotB
  · cases hb : MatchWithWildcards t k
    · rfl
    · exact absurd hb hm

/-- C5 (witness): the amended theorem applied at the tree whose only
pattern is `"t.*"`, with the key `"tx"`. -/
theorem C5_amended_witness :
    wfS exC5only = true ∧ MatchWithWildcards exC5only [116, 120] = false :=
  ⟨by decide,
    C5_amended exC5only [116] [116, 120] (by decide) (by decide) (by decide)
      (by decide) (by decide) (by decide)⟩

/-- C6: an exact stored key always matches: for every well-formed tree and
every key that is itself a stored pattern, `MatchWithWildcards` returns
`true`, along any radix descent path and regardless of which other patterns
share prefixes with it. -/
theorem C6_exact_match (t : Node) (k : List Nat)
    (hwf : wellFormedB t = true) (hk : k ∈ keys t) :
    MatchWithWildcards t k = true := by
  unfold MatchWithWildcards
  unfold wellFormedB at hwf
  rw [Bool.and_eq_true] at hwf
  by_cases hke : k.isEmpty = true
  · rw [if_pos hke]
    exact contains_iff.mpr hk
  · rw [if_neg hke]
    by_cases hstar : getMem t [starB] = true
    · rw [if_pos hstar]
    · rw [if_neg hstar]
      exact mwwf_exact t k k hwf.1 hk

/-- C6 (witness): the theorem applied at the tree for `{"t.*", "txf"}` with
the stored key `"txf"`. -/
theorem C6_exact_match_witness :
    wellFormedB exC5 = true ∧ MatchWithWildcards exC5 [116, 120, 102] = true :=
  ⟨by decide, C6_exact_match exC5 [116, 120, 102] (by decide) (by decide)⟩

/-- C7: if the single-byte pattern `"*"` is stored, every non-empty key
matches, via the short-circuit `Get("*")` check of lines 25-28. -/
theorem C7_universal_star (t : Node) (k : List Nat)
    (hstar : [starB] ∈ keys t) (hk : k ≠ []) :
    MatchWithWildcards t k = true := by
  unfold MatchWithWildcards
  rw [if_neg (fun h => hk (isEmpty_true_iff.mp h))]
  rw [if_pos (show getMem t [starB] = true from contains_iff.mpr hstar)]

/-- C7 (witness): the theorem applied at the tree storing only `"*"` with
the key `"a"`. -/
theorem C7_universal_star_witness :
    [starB] ∈ keys exStar ∧ MatchWithWildcards exStar [97] = true :=
  ⟨by decide, C7_universal_star exStar [97] (by decide) (by decide)⟩

/-- C8: on the empty key, `MatchWithWildcards` returns `true` exactly when
the empty key itself is stored, for every tree — hence independently of any
wildcard patterns present, including a stored `"*"` (lines 20-23). -/
theorem C8_empty_key (t : Node) :
    MatchWithWildcards t [] = true ↔ [] ∈ keys t := by
  unfold MatchWithWildcards
  rw [if_pos (show (List.isEmpty ([] : List Nat)) = true from rfl)]
  exact contains_iff

/-- C9: on every tree whose edge labels are all non-empty,
`matchWithWildcardsFrom` is total with recursion depth bounded by the search
length: the fuel-bounded variant with fuel `search.length + 1` computes the
same answer, because each recursive call consumes a non-empty edge label
from the remaining search. -/
theorem C9_fuel_bound (n : Node) (o s : List Nat) (hne : edgesNE n = true) :
    matchFromFuel (s.length + 1) n o s = matchWithWildcardsFrom n o s :=
  fuel_eq_mwwf (s.length + 1) n o s hne (Nat.lt_succ_self _)

/-- C9 (witness): the theorem applied at the tree storing `"*"` with search
`"a"`. -/
theorem C9_fuel_bound_witness :
    edgesNE exStar = true ∧
    matchFromFuel (([97] : List Nat).length + 1) exStar [97] [97] =
      matchWithWildcardsFrom exStar [97] [97] :=
  ⟨by decide, C9_fuel_bound exStar [97] [97] (by decide)⟩

/-- C10: the result of `matchWithWildcardsFrom` does not depend on its
`originalKey` argument: for every node, any two values of it, and every
search remainder, the results coincide — so `MatchWithWildcards` depends
only on the key and the tree contents. -/
theorem C10_originalKey_irrelevant (n : Node) (o1 o2 s : List Nat) :
    matchWithWildcardsFrom n o1 s = matchWithWildcardsFrom n o2 s :=
  mwwf_originalKey n o1 o2 s
